import Mathlib

set_option maxRecDepth 100000

set_option maxHeartbeats 4000000

/-!
Verification of a proof-of-work blockchain implementation.

The development shallowly embeds the Go program: blocks, their
deterministic serialization, SHA-256 hashing (buffered and streaming
paths), the proof-of-work search, chain construction and the two chain
validators.  Machine integers are modelled as `Int`/`Nat` with explicit
reductions modulo powers of two exactly where the Go code converts or
overflows; byte strings are lists of naturals below 256; the unbounded
mining loop is modelled with explicit fuel, `none` standing for a run
that panics or does not return within the fuel.
-/

/-- Byte strings: lists of naturals; every entry produced below is < 256. -/
abbrev Bytes := List Nat

/-- Little-endian encoding of a natural number into a fixed number of bytes
(the way Go binary.Write in LittleEndian order lays out an integer). -/
def natLE : Nat → Nat → Bytes
  | _, 0 => []
  | x, w + 1 => x % 256 :: natLE (x / 256) w

/-- Value of a little-endian byte string (decoder used for the
serialization-injectivity argument). -/
def leVal : Bytes → Nat
  | [] => 0
  | b :: rest => b + 256 * leVal rest

/-- Big-endian encoding of a natural number in a fixed number of bytes. -/
def natBE (x w : Nat) : Bytes := (natLE x w).reverse

/-! ## SHA-256 (FIPS 180-4), executable over byte lists -/

/-- Rotate a 32-bit word right by n positions. -/
def rotr32 (n x : Nat) : Nat := ((x >>> n) ||| (x <<< (32 - n))) % 4294967296

/-- Bitwise complement of a 32-bit word. -/
def not32 (x : Nat) : Nat := x ^^^ 4294967295

/-- SHA-256 choice function. -/
def chF (x y z : Nat) : Nat := (x &&& y) ^^^ (not32 x &&& z)

/-- SHA-256 majority function. -/
def majF (x y z : Nat) : Nat := (x &&& y) ^^^ (x &&& z) ^^^ (y &&& z)

/-- SHA-256 big sigma 0. -/
def bsig0 (x : Nat) : Nat := rotr32 2 x ^^^ rotr32 13 x ^^^ rotr32 22 x

/-- SHA-256 big sigma 1. -/
def bsig1 (x : Nat) : Nat := rotr32 6 x ^^^ rotr32 11 x ^^^ rotr32 25 x

/-- SHA-256 small sigma 0. -/
def ssig0 (x : Nat) : Nat := rotr32 7 x ^^^ rotr32 18 x ^^^ (x >>> 3)

/-- SHA-256 small sigma 1. -/
def ssig1 (x : Nat) : Nat := rotr32 17 x ^^^ rotr32 19 x ^^^ (x >>> 10)

/-- SHA-256 round constants. -/
def shaK : List Nat :=
  [1116352408, 1899447441, 3049323471, 3921009573, 961987163,
   1508970993, 2453635748, 2870763221, 3624381080, 310598401,
   607225278, 1426881987, 1925078388, 2162078206, 2614888103,
   3248222580, 3835390401, 4022224774, 264347078, 604807628,
   770255983, 1249150122, 1555081692, 1996064986, 2554220882,
   2821834349, 2952996808, 3210313671, 3336571891, 3584528711,
   113926993, 338241895, 666307205, 773529912, 1294757372,
   1396182291, 1695183700, 1986661051, 2177026350, 2456956037,
   2730485921, 2820302411, 3259730800, 3345764771, 3516065817,
   3600352804, 4094571909, 275423344, 430227734, 506948616,
   659060556, 883997877, 958139571, 1322822218, 1537002063,
   1747873779, 1955562222, 2024104815, 2227730452, 2361852424,
   2428436474, 2756734187, 3204031479, 3329325298]

/-- The eight 32-bit working variables of the SHA-256 compression loop,
also used as the running hash value. -/
structure ShaState where
  a : Nat
  b : Nat
  c : Nat
  d : Nat
  e : Nat
  f : Nat
  g : Nat
  h : Nat

/-- SHA-256 initial hash state. -/
def shaH0 : ShaState :=
  ⟨1779033703, 3144134277, 1013904242, 2773480762,
   1359893119, 2600822924, 528734635, 1541459225⟩

/-- Group bytes into big-endian 32-bit words. -/
def toWordsBE : Bytes → List Nat
  | b0 :: b1 :: b2 :: b3 :: rest =>
      (((b0 * 256 + b1) * 256 + b2) * 256 + b3) :: toWordsBE rest
  | _ => []

/-- One step of the SHA-256 message-schedule extension. -/
def extendStep (w : List Nat) : List Nat :=
  let i := w.length
  let w16 := w.getD (i - 16) 0
  let w15 := w.getD (i - 15) 0
  let w7 := w.getD (i - 7) 0
  let w2 := w.getD (i - 2) 0
  w ++ [(w16 + ssig0 w15 + w7 + ssig1 w2) % 4294967296]

/-- Iterate the message-schedule extension. -/
def extendMany : Nat → List Nat → List Nat
  | 0, w => w
  | n + 1, w => extendMany n (extendStep w)

/-- One SHA-256 round; the argument is the round constant plus schedule word. -/
def shaRound (kw : Nat) (s : ShaState) : ShaState :=
  let t1 := (s.h + bsig1 s.e + chF s.e s.f s.g + kw) % 4294967296
  let t2 := (bsig0 s.a + majF s.a s.b s.c) % 4294967296
  ⟨(t1 + t2) % 4294967296, s.a, s.b, s.c, (s.d + t1) % 4294967296, s.e, s.f, s.g⟩

/-- All 64 SHA-256 rounds. -/
def shaRounds : List Nat → ShaState → ShaState
  | [], s => s
  | kw :: rest, s => shaRounds rest (shaRound kw s)

/-- SHA-256 compression of one 64-byte chunk into the running hash value. -/
def shaCompress (hv : ShaState) (chunk : Bytes) : ShaState :=
  let ws := extendMany 48 (toWordsBE chunk)
  let kws := List.zipWith (fun k w => (k + w) % 4294967296) shaK ws
  let s := shaRounds kws hv
  ⟨(hv.a + s.a) % 4294967296, (hv.b + s.b) % 4294967296, (hv.c + s.c) % 4294967296,
   (hv.d + s.d) % 4294967296, (hv.e + s.e) % 4294967296, (hv.f + s.f) % 4294967296,
   (hv.g + s.g) % 4294967296, (hv.h + s.h) % 4294967296⟩

/-- SHA-256 padding: append 0x80, zeros, and the 64-bit big-endian bit length. -/
def shaPad (msg : Bytes) : Bytes :=
  msg ++ 0x80 :: (List.replicate ((64 - (msg.length + 9) % 64) % 64) 0 ++ natBE (8 * msg.length) 8)

/-- Fold the compression function over the 64-byte chunks. -/
def shaChunksGo : Nat → ShaState → Bytes → ShaState
  | 0, hv, _ => hv
  | n + 1, hv, msg => shaChunksGo n (shaCompress hv (msg.take 64)) (msg.drop 64)

/-- SHA-256 digest of a byte string: 32 bytes. -/
def sha256 (msg : Bytes) : Bytes :=
  let padded := shaPad msg
  let st := shaChunksGo (padded.length / 64) shaH0 padded
  natBE st.a 4 ++ natBE st.b 4 ++ natBE st.c 4 ++ natBE st.d 4 ++
  natBE st.e 4 ++ natBE st.f 4 ++ natBE st.g 4 ++ natBE st.h 4

/-! ## The Block record and its serialization (src/main.go) -/

/-- Block from main.go.  Go int and int64 fields are modelled as Int; the
serialization reduces them modulo 2^64 exactly where Go converts them. -/
structure Block where
  Index : Int
  Timestamp : Int
  Data : Bytes
  PrevHash : Bytes
  Hash : Bytes
  Nonce : Int
  explicitlyInitialized : Bool
deriving DecidableEq

/-- The 8 little-endian bytes Go binary.Write emits for int64(x): the two's
complement representation, i.e. x modulo 2^64. -/
def int64LE (x : Int) : Bytes := natLE (x.emod 18446744073709551616).toNat 8

/-- The 4 little-endian bytes Go binary.Write emits for int32(len(s)): the
length modulo 2^32. -/
def len32LE (n : Nat) : Bytes := natLE (n % 4294967296) 4

/-- serializeBlock from main.go: version byte 0x01, flag byte (0xFF when
explicitlyInitialized, else 0x00), Index, Timestamp and Nonce as
little-endian int64, then int32-length-prefixed Data and PrevHash. -/
def serializeBlock (block : Block) : Bytes :=
  [0x01] ++ [if block.explicitlyInitialized then 0xFF else 0x00] ++
  int64LE block.Index ++ int64LE block.Timestamp ++ int64LE block.Nonce ++
  len32LE block.Data.length ++ block.Data ++
  len32LE block.PrevHash.length ++ block.PrevHash

/-- calculateHashStreaming from main.go: writes the same header fields,
lengths and payload bytes one by one into an incremental SHA-256 hasher
(the uint64/uint32 conversions produce the same two's-complement bytes as
the buffered path); modelled as SHA-256 of the streamed byte sequence. -/
def calculateHashStreaming (block : Block) : Bytes :=
  sha256
    ([0x01] ++ [if block.explicitlyInitialized then 0xFF else 0x00] ++
     int64LE block.Index ++ int64LE block.Timestamp ++ int64LE block.Nonce ++
     len32LE block.Data.length ++ block.Data ++
     len32LE block.PrevHash.length ++ block.PrevHash)

/-- calculateHash from main.go: streaming path above the 64 KiB payload
threshold, buffered serialize-then-hash path below it. -/
def calculateHash (block : Block) : Bytes :=
  if block.Data.length > 64 * 1024 then calculateHashStreaming block
  else sha256 (serializeBlock block)

/-! ## Proof of work (src/main.go, optimized byte-level check) -/

/-- The leading zero-byte scan of the proofOfWork validity check: the Go
loop tests hash[i] for i < difficulty/2, breaking at the first nonzero
byte; none models the index-out-of-range panic when the scan runs past the
end of the digest. -/
def zeroPrefix : Bytes → Nat → Option Bool
  | _, 0 => some true
  | [], _ + 1 => none
  | b :: rest, k + 1 => if b ≠ 0 then some false else zeroPrefix rest k

/-- The digest test of the optimized proofOfWork: difficulty/2 whole zero
bytes, and for odd difficulty the top nibble of the next byte must be zero
(hash[difficulty/2] < 0x10).  Division and remainder are Go truncated
division on int. -/
def powCheck (hash : Bytes) (difficulty : Int) : Option Bool :=
  match zeroPrefix hash (Int.tdiv difficulty 2).toNat with
  | none => none
  | some false => some false
  | some true =>
    if Int.tmod difficulty 2 = 1 then
      match hash[(Int.tdiv difficulty 2).toNat]? with
      | none => none
      | some v => some (decide (v < 0x10))
    else some true

/-- The nonce loop of proofOfWork, with explicit fuel: set the nonce, hash,
test, increment. -/
def powLoop (block : Block) (difficulty : Int) : Nat → Int → Option (Bytes × Int)
  | 0, _ => none
  | fuel + 1, nonce =>
    match powCheck (calculateHash {block with Nonce := nonce}) difficulty with
    | none => none
    | some true => some (calculateHash {block with Nonce := nonce}, nonce)
    | some false => powLoop block difficulty fuel (nonce + 1)

/-- proofOfWork from main.go.  The guard mirrors the make([]byte, (d+1)/2)
allocation of the target buffer, which panics for (d+1)/2 < 0; none stands
for a panic or a search that does not return within the fuel. -/
def proofOfWork (block : Block) (difficulty : Int) (fuel : Nat) : Option (Bytes × Int) :=
  if Int.tdiv (difficulty + 1) 2 < 0 then none
  else powLoop block difficulty fuel 0

/-! ## Block construction (src/main.go) -/

/-- generateBlock from main.go; the wall-clock timestamp is an explicit
argument and the unbounded mining loop carries fuel. -/
def generateBlock (prevBlock : Block) (data : Bytes) (difficulty : Int)
    (ts : Int) (fuel : Nat) : Option Block :=
  match proofOfWork
      { Index := prevBlock.Index + 1, Timestamp := ts, Data := data,
        PrevHash := prevBlock.Hash, Hash := [], Nonce := 0,
        explicitlyInitialized := false } difficulty fuel with
  | none => none
  | some (hash, nonce) =>
      some { Index := prevBlock.Index + 1, Timestamp := ts, Data := data,
             PrevHash := prevBlock.Hash, Hash := hash, Nonce := nonce,
             explicitlyInitialized := false }

/-- The bytes of the string Genesis. -/
def genesisData : Bytes := [71, 101, 110, 101, 115, 105, 115]

/-- newGenesisBlock from main.go, timestamp as explicit argument; the hash
is computed directly, without mining. -/
def newGenesisBlock (ts : Int) : Block :=
  let b : Block :=
    { Index := 0, Timestamp := ts, Data := genesisData, PrevHash := [],
      Hash := [], Nonce := 0, explicitlyInitialized := false }
  {b with Hash := calculateHash b}

/-- Payload, timestamp and mining fuel for one requested block. -/
structure BlockSpec where
  data : Bytes
  ts : Int
  fuel : Nat

/-- Repeated generateBlock calls extending a chain, as the main loop does. -/
def buildRest (prev : Block) (difficulty : Int) : List BlockSpec → Option (List Block)
  | [] => some []
  | s :: rest =>
    match generateBlock prev s.data difficulty s.ts s.fuel with
    | none => none
    | some b =>
      match buildRest b difficulty rest with
      | none => none
      | some bs => some (b :: bs)

/-- A chain as main builds it: newGenesisBlock followed by repeated
generateBlock calls, each referencing the previously appended block. -/
def buildChain (gts : Int) (difficulty : Int) (specs : List BlockSpec) : Option (List Block) :=
  match buildRest (newGenesisBlock gts) difficulty specs with
  | none => none
  | some bs => some (newGenesisBlock gts :: bs)

/-! ## Chain validation (src/main.go) -/

/-- Lookup in the hash cache, a Go map keyed by block Index. -/
def cacheLookup : List (Int × Bytes) → Int → Option Bytes
  | [], _ => none
  | (i, h) :: rest, j => if i = j then some h else cacheLookup rest j

/-- The get-or-compute step of isChainValidCached: consult the cache under
the block Index, otherwise hash and record. -/
def getOrCompute (cache : List (Int × Bytes)) (b : Block) : Bytes × List (Int × Bytes) :=
  match cacheLookup cache b.Index with
  | some h => (h, cache)
  | none => (calculateHash b, (b.Index, calculateHash b) :: cache)

/-- The i = 1 .. len-1 loop of isChainValidCached: check the link to the
previous block first (early exit), then the current block digest. -/
def validCachedLoop : Block → List Block → List (Int × Bytes) → Bool
  | _, [], _ => true
  | prevBlock, currBlock :: rest, cache =>
    match getOrCompute cache prevBlock with
    | (prevHash, cache1) =>
      if currBlock.PrevHash == prevHash then
        match getOrCompute cache1 currBlock with
        | (currHash, cache2) =>
          if currBlock.Hash == currHash then validCachedLoop currBlock rest cache2
          else false
      else false

/-- isChainValidCached from main.go. -/
def isChainValidCached : List Block → Bool
  | [] => true
  | b :: rest => validCachedLoop b rest []

/-- The per-pair check the isChainValidConcurrent worker performs: both
digests recomputed from scratch, no cache. -/
def validateBlockPair (prevBlock currBlock : Block) : Bool :=
  currBlock.PrevHash == calculateHash prevBlock &&
  currBlock.Hash == calculateHash currBlock

/-- The collector of isChainValidConcurrent returns false as soon as any
pair reports invalid and true once all pairs reported valid, so the overall
verdict is the conjunction of the per-pair results, independent of
scheduling order. -/
def allPairsValid : List Block → Bool
  | [] => true
  | [_] => true
  | a :: b :: rest => validateBlockPair a b && allPairsValid (b :: rest)

/-- isChainValidConcurrent from main.go: empty chains are valid, chains of
fewer than 1000 records fall back to the cached sequential validator, and
larger chains are the conjunction of the independent per-pair checks. -/
def isChainValidConcurrent (chain : List Block) : Bool :=
  if chain.length = 0 then true
  else if chain.length < 1000 then isChainValidCached chain
  else allPairsValid chain

/-- Modelled from the spec: a cache-free reference validator (sections 4.4
and 9: validation must give the same answer with caching disabled) that
recomputes every digest, checks linkage then digest self-consistency per
adjacent pair, and fails fast. -/
def isChainValidNoCache : List Block → Bool
  | [] => true
  | [_] => true
  | a :: b :: rest => validateBlockPair a b && isChainValidNoCache (b :: rest)

/-! ## Cancellable mining (modelled from the spec) -/

/-- Outcomes of the cancellable miner the spec describes. -/
inductive MineOutcome where
  | success (digest : Bytes) (nonce : Int)
  | cancelled
  | invalidDifficulty
deriving DecidableEq

/-- Modelled from the spec: the nonce loop of the cancellable miner of
section 4.3, polling the cancellation signal every interval attempts
(including at the start of the search) and otherwise hashing and testing as
proofOfWork does. -/
def mineCancelLoop (block : Block) (difficulty : Int) (cancelSignal : Nat → Bool)
    (interval : Nat) : Nat → Nat → Option MineOutcome
  | 0, _ => none
  | fuel + 1, attempt =>
    if attempt % interval = 0 && cancelSignal attempt then some .cancelled
    else
      match powCheck (calculateHash {block with Nonce := (attempt : Int)}) difficulty with
      | none => none
      | some true =>
          some (.success (calculateHash {block with Nonce := (attempt : Int)}) (attempt : Int))
      | some false => mineCancelLoop block difficulty cancelSignal interval fuel (attempt + 1)

/-- Modelled from the spec: the cancellable mining entry point
mine(record, difficulty, cancellation_signal) of sections 4.3 and 7 is not
under src/ (only context-accepting callers and tests of it survive there);
difficulty outside 0..256 is an InvalidDifficulty input error, and an
observed cancellation stops the search with a Cancelled outcome. -/
def mineCancellable (block : Block) (difficulty : Int) (cancelSignal : Nat → Bool)
    (interval : Nat) (fuel : Nat) : Option MineOutcome :=
  if difficulty < 0 ∨ 256 < difficulty then some .invalidDifficulty
  else mineCancelLoop block difficulty cancelSignal interval fuel 0

/-- Outcomes of the cancellable concurrent validation the spec describes:
a completed run carries the boolean verdict; a run whose cancellation
signal fired mid-collection is a distinct, non-valid outcome. -/
inductive ValidateOutcome where
  | completed (valid : Bool)
  | cancelled
deriving DecidableEq

/-- Modelled from the spec: the result-collection loop of the cancellable
concurrent validator of section 5 — collection blocks until all pair
results are in or the cancellation signal fires, and a cancellation
observed mid-collection yields the cancelled outcome, not a verdict; the
signal is polled before collecting each adjacent pair's result, and each
pair's result is the same from-scratch two-digest check the concurrent
workers perform. -/
def validateConcurrentLoop (cancelSignal : Nat → Bool) :
    Block → List Block → Nat → ValidateOutcome
  | _, [], _ => .completed true
  | prev, curr :: rest, step =>
    if cancelSignal step then .cancelled
    else if validateBlockPair prev curr then
      validateConcurrentLoop cancelSignal curr rest (step + 1)
    else .completed false

/-- Modelled from the spec: the cancellable concurrent validation entry
point validate_concurrent(chain, worker_count, cancellation) of sections
5, 6 and 7 is not under src/ (only context-accepting callers and tests of
it survive there); empty chains complete immediately as valid — they
submit no pair — and otherwise the collection loop above runs over the
adjacent pairs. -/
def validateConcurrentCancellable (chain : List Block) (cancelSignal : Nat → Bool) :
    ValidateOutcome :=
  match chain with
  | [] => .completed true
  | b :: rest => validateConcurrentLoop cancelSignal b rest 0

/-! ## C1: injectivity of the serialization

The encoding is inverted by an explicit decoder; a block whose integer
fields lie in the Go int64 range and whose byte fields are shorter than
2^32 (the width of the length prefixes) is recovered exactly.  The length
prefixes are written modulo 2^32, so 4 GiB fields genuinely collide; the
counterexample below exhibits this. -/

/-- Go typing constraints of a Block value: int fields are 64-bit, slice
lengths fit the 32-bit length prefix. -/
def GoRange (b : Block) : Prop :=
  -9223372036854775808 ≤ b.Index ∧ b.Index < 9223372036854775808 ∧
  -9223372036854775808 ≤ b.Timestamp ∧ b.Timestamp < 9223372036854775808 ∧
  -9223372036854775808 ≤ b.Nonce ∧ b.Nonce < 9223372036854775808 ∧
  b.Data.length < 4294967296 ∧ b.PrevHash.length < 4294967296

instance (b : Block) : Decidable (GoRange b) := by
  unfold GoRange
  infer_instance

/-- Read a fixed number of bytes from the front of a string. -/
def readN (w : Nat) (s : Bytes) : Option (Bytes × Bytes) :=
  if w ≤ s.length then some (s.take w, s.drop w) else none

/-- Decoder for the block serialization: version byte, flag byte, the three
64-bit fields (as their two's-complement residues), then the two
length-prefixed byte fields, requiring the input to be consumed exactly. -/
def deserializeBlock (s : Bytes) : Option (Bool × Nat × Nat × Nat × Bytes × Bytes) :=
  match s with
  | v :: fb :: r0 =>
    if v = 1 then
      (readN 8 r0).bind fun p1 =>
      (readN 8 p1.2).bind fun p2 =>
      (readN 8 p2.2).bind fun p3 =>
      (readN 4 p3.2).bind fun p4 =>
      (readN (leVal p4.1) p4.2).bind fun p5 =>
      (readN 4 p5.2).bind fun p6 =>
      (readN (leVal p6.1) p6.2).bind fun p7 =>
      if p7.2 = [] then
        some (fb == 255, leVal p1.1, leVal p2.1, leVal p3.1, p5.1, p7.1)
      else none
    else none
  | _ => none

/-- First half of the C1 counterexample: a 2^32-byte all-zero payload with
an empty predecessor digest. -/
def blkBigData : Block :=
  { Index := 0, Timestamp := 0, Data := List.replicate 4294967296 0,
    PrevHash := [], Hash := [], Nonce := 0, explicitlyInitialized := false }

/-- Second half of the C1 counterexample: payload and predecessor digest
swapped. -/
def blkBigPrev : Block :=
  { Index := 0, Timestamp := 0, Data := [],
    PrevHash := List.replicate 4294967296 0, Hash := [], Nonce := 0,
    explicitlyInitialized := false }

/-! ## C3/C4/C7: the proof-of-work search

The digest is read as a big-endian natural number; having the first k bits
zero (big-endian bit order) is equivalent to that number being below
2^(256-k).  The code tests whole zero bytes plus a top nibble, i.e. the
first 4*d bits for difficulty d, and the lemmas below characterize the
test exactly. -/

/-- The big-endian numeric value of a digest. -/
def digestVal : Bytes → Nat
  | [] => 0
  | b :: rest => b * 256 ^ rest.length + digestVal rest

/-! ## C5/C9: the hash cache and validator agreement

The cache of isChainValidCached is keyed by the block Index.  On chains
with pairwise-distinct Index values every cache entry holds the digest of
the one block with that index, and the cached validator coincides with the
cache-free reference validator; with duplicate indexes the cache can
return the digest of a different block and flip the verdict. -/

/-- Every cache entry maps an index to the digest of every listed block
carrying that index. -/
def CacheAgrees (blocks : List Block) (cache : List (Int × Bytes)) : Prop :=
  ∀ i h, cacheLookup cache i = some h → ∀ b ∈ blocks, b.Index = i → h = calculateHash b

/-- SHA-256 digest of the record (0, 0, empty, empty, nonce 0). -/
def hashA : Bytes :=
  [129, 133, 144, 43, 77, 174, 164, 234, 112, 0, 190, 5, 192, 111, 130, 149,
   238, 246, 161, 33, 220, 105, 124, 230, 200, 158, 5, 106, 149, 165, 180, 78]

/-- A self-consistent record with Index 0. -/
def blkA : Block :=
  { Index := 0, Timestamp := 0, Data := [], PrevHash := [], Hash := hashA,
    Nonce := 0, explicitlyInitialized := false }

/-- A record with the same Index 0 whose stored digest is blkA's digest,
not its own: correctly linked, self-inconsistent. -/
def blkB : Block :=
  { Index := 0, Timestamp := 0, Data := [], PrevHash := hashA, Hash := hashA,
    Nonce := 0, explicitlyInitialized := false }

/-- The C5 counterexample chain: 1000 records, above the concurrency
threshold, with duplicate Index values. -/
def chainC5 : List Block := blkA :: List.replicate 999 blkB

/-- SHA-256 digest of the genesis record with timestamp 0. -/
def hashG : Bytes :=
  [39, 78, 167, 92, 84, 196, 189, 140, 174, 167, 84, 51, 151, 32, 236, 237,
   134, 72, 214, 98, 56, 215, 164, 1, 134, 147, 9, 162, 39, 244, 94, 221]

/-- The bytes of the string Block 1. -/
def b1Data : Bytes := [66, 108, 111, 99, 107, 32, 49]

/-- The bytes of the string Block 2. -/
def b2Data : Bytes := [66, 108, 111, 99, 107, 32, 50]

/-- The genesis record the code builds at timestamp 0. -/
def gBlock : Block :=
  { Index := 0, Timestamp := 0, Data := genesisData, PrevHash := [],
    Hash := hashG, Nonce := 0, explicitlyInitialized := false }

/-- Digest of the first mined record (timestamp 9, winning nonce 3). -/
def hashB1 : Bytes :=
  [11, 223, 243, 178, 59, 105, 189, 104, 122, 236, 6, 69, 116, 115, 138, 105,
   46, 184, 102, 96, 134, 191, 110, 64, 115, 183, 44, 36, 121, 214, 116, 238]

/-- First mined record of the difficulty-1 scenario chain. -/
def b1Block : Block :=
  { Index := 1, Timestamp := 9, Data := b1Data, PrevHash := hashG,
    Hash := hashB1, Nonce := 3, explicitlyInitialized := false }

/-- Digest of the second mined record (timestamp 1, winning nonce 2). -/
def hashB2 : Bytes :=
  [15, 142, 36, 251, 134, 41, 227, 220, 55, 237, 213, 195, 110, 76, 146, 167,
   221, 235, 77, 218, 190, 128, 36, 98, 215, 163, 87, 69, 95, 193, 1, 55]

/-- Second mined record of the difficulty-1 scenario chain. -/
def b2Block : Block :=
  { Index := 2, Timestamp := 1, Data := b2Data, PrevHash := hashB1,
    Hash := hashB2, Nonce := 2, explicitlyInitialized := false }

/-- Digest of the second mined record after resetting its nonce to 0. -/
def hashB2T : Bytes :=
  [22, 100, 170, 132, 119, 144, 115, 84, 230, 227, 235, 11, 142, 44, 227, 163,
   10, 23, 136, 225, 193, 6, 167, 96, 219, 47, 100, 71, 235, 156, 189, 45]

/-- The tampered last record: nonce reset to 0, digest recomputed. -/
def b2Tampered : Block :=
  { Index := 2, Timestamp := 1, Data := b2Data, PrevHash := hashB1,
    Hash := hashB2T, Nonce := 0, explicitlyInitialized := false }

/-! ## C10: chains built by the code validate -/

/-- Every record of the list extends its predecessor: Index one higher,
PrevHash equal to the predecessor's digest, Hash equal to the digest of
its own final field values. -/
def ChainLinked : Block → List Block → Prop
  | _, [] => True
  | prev, b :: rest =>
    b.Index = prev.Index + 1 ∧ b.PrevHash = prev.Hash ∧
    b.Hash = calculateHash b ∧ ChainLinked b rest

/-- Digest of the difficulty-0 witness record at Index 1, timestamp 5. -/
def hashB1W : Bytes :=
  [27, 27, 212, 67, 107, 88, 182, 23, 126, 101, 247, 150, 156, 43, 107, 187,
   153, 63, 141, 16, 89, 92, 232, 22, 0, 214, 114, 90, 241, 174, 123, 86]

/-- Digest of the difficulty-0 witness record at Index 2, timestamp 6. -/
def hashB2W : Bytes :=
  [15, 108, 164, 198, 226, 129, 95, 242, 156, 186, 28, 131, 197, 122, 125, 50,
   179, 38, 96, 197, 4, 80, 19, 237, 37, 11, 163, 253, 173, 238, 133, 234]

/-- First appended record of the difficulty-0 witness chain. -/
def b1W : Block :=
  { Index := 1, Timestamp := 5, Data := b1Data, PrevHash := hashG,
    Hash := hashB1W, Nonce := 0, explicitlyInitialized := false }

/-- Second appended record of the difficulty-0 witness chain. -/
def b2W : Block :=
  { Index := 2, Timestamp := 6, Data := b2Data, PrevHash := hashB1W,
    Hash := hashB2W, Nonce := 0, explicitlyInitialized := false }

/-! ## C8: cancellation (modelled from the spec) -/

/-! ## Concrete proof-of-work runs for C3 and C7 -/

/-- The concrete record of the C3 counterexample (timestamp 8). -/
def c3Block : Block :=
  { Index := 0, Timestamp := 8, Data := [], PrevHash := [], Hash := [],
    Nonce := 0, explicitlyInitialized := false }

/-- Digest of c3Block at nonce 2, the nonce difficulty-1 mining returns:
one whole zero nibble. -/
def c3Hash : Bytes :=
  [0, 157, 71, 23, 192, 16, 168, 249, 143, 165, 254, 30, 202, 101, 50, 48,
   242, 179, 122, 165, 187, 186, 7, 60, 54, 115, 192, 18, 122, 114, 201, 2]

/-- Digest of c3Block at nonce 0: first byte 0x66, so its first bit is
zero but its first nibble is not. -/
def c3Nonce0Hash : Bytes :=
  [102, 167, 176, 187, 240, 99, 209, 194, 64, 236, 100, 182, 234, 18, 7, 103,
   192, 216, 184, 248, 39, 86, 46, 29, 63, 248, 42, 46, 85, 85, 53, 99]

/-- The FIPS 180-4 test vector for the string abc, validating the SHA-256
model against the standard. -/
theorem sha256_test_vector_abc : sha256 [97, 98, 99] =
    [186, 120, 22, 191, 143, 1, 207, 234, 65, 65, 64, 222, 93, 174, 34, 35,
     176, 3, 97, 163, 150, 23, 122, 156, 180, 16, 255, 97, 242, 0, 21, 173] := rfl

/-! ## Basic facts about the byte encoders -/

theorem natLE_length (w x : Nat) : (natLE x w).length = w := by
  induction w generalizing x with
  | zero => rfl
  | succ w ih => simp [natLE, ih]

theorem natLE_mem_lt (w x : Nat) : ∀ b ∈ natLE x w, b < 256 := by
  induction w generalizing x with
  | zero => intro b hb; simp [natLE] at hb
  | succ w ih =>
    intro b hb
    simp only [natLE, List.mem_cons] at hb
    rcases hb with h | h
    · subst h; exact Nat.mod_lt _ (by norm_num)
    · exact ih _ b h

theorem leVal_natLE (w x : Nat) (h : x < 256 ^ w) : leVal (natLE x w) = x := by
  induction w generalizing x with
  | zero =>
    simp only [natLE, leVal]
    simp only [pow_zero] at h
    omega
  | succ w ih =>
    have hdiv : x / 256 < 256 ^ w := by
      rw [Nat.div_lt_iff_lt_mul (by norm_num)]
      calc x < 256 ^ (w + 1) := h
        _ = 256 ^ w * 256 := by ring
    simp only [natLE, leVal, ih _ hdiv]
    omega

theorem natBE_length (w x : Nat) : (natBE x w).length = w := by
  simp [natBE, natLE_length]

theorem natBE_mem_lt (w x : Nat) : ∀ b ∈ natBE x w, b < 256 := by
  intro b hb
  rw [natBE, List.mem_reverse] at hb
  exact natLE_mem_lt w x b hb

/-! ## Shape of the SHA-256 output -/

theorem sha256_length (msg : Bytes) : (sha256 msg).length = 32 := by
  simp [sha256, natBE_length]

theorem sha256_mem_lt (msg : Bytes) : ∀ b ∈ sha256 msg, b < 256 := by
  intro b hb
  simp only [sha256, List.mem_append] at hb
  rcases hb with ((((((h | h) | h) | h) | h) | h) | h) | h <;>
    exact natBE_mem_lt _ _ b h

theorem calculateHash_length (block : Block) : (calculateHash block).length = 32 := by
  unfold calculateHash calculateHashStreaming
  split <;> exact sha256_length _

theorem calculateHash_mem_lt (block : Block) : ∀ b ∈ calculateHash block, b < 256 := by
  unfold calculateHash calculateHashStreaming
  split <;> exact sha256_mem_lt _

/-! ## C2: the buffered and the streaming hash path agree -/

theorem calculateHashStreaming_eq_buffered (block : Block) :
    calculateHashStreaming block = sha256 (serializeBlock block) := rfl

theorem calculateHash_eq_buffered (block : Block) :
    calculateHash block = sha256 (serializeBlock block) := by
  unfold calculateHash
  split
  · exact calculateHashStreaming_eq_buffered block
  · rfl

/-- C2: for every Block record with fixed field values the digest is
deterministic (calculateHash is a pure function of the record, equal to
SHA-256 of the serialized record) and path-independent: the streaming path
produces a byte-identical digest to the buffered serialize-then-hash path,
on either side of the 64 KiB payload threshold, and the digest is 32 bytes
wide. -/
theorem hash_deterministic_and_path_independent (block : Block) :
    calculateHash block = sha256 (serializeBlock block) ∧
    calculateHashStreaming block = calculateHash block ∧
    (calculateHash block).length = 32 :=
  ⟨calculateHash_eq_buffered block,
   (calculateHashStreaming_eq_buffered block).trans
     (calculateHash_eq_buffered block).symm,
   calculateHash_length block⟩

theorem readN_exact (xs rest : Bytes) (w : Nat) (h : xs.length = w) :
    readN w (xs ++ rest) = some (xs, rest) := by
  subst h
  rw [readN, if_pos]
  · rw [List.take_left, List.drop_left]
  · simp

theorem readN_all (xs : Bytes) (w : Nat) (h : xs.length = w) :
    readN w xs = some (xs, []) := by
  subst h
  rw [readN, if_pos (le_refl _), List.take_length, List.drop_length]

theorem int64LE_length (x : Int) : (int64LE x).length = 8 := natLE_length 8 _

theorem len32LE_length (n : Nat) : (len32LE n).length = 4 := natLE_length 4 _

theorem leVal_int64LE (x : Int) :
    leVal (int64LE x) = (x.emod 18446744073709551616).toNat := by
  apply leVal_natLE
  have h1 : x.emod 18446744073709551616 < 18446744073709551616 :=
    Int.emod_lt_of_pos x (by norm_num)
  have h2 : (0 : Int) ≤ x.emod 18446744073709551616 :=
    Int.emod_nonneg x (by norm_num)
  show (x.emod 18446744073709551616).toNat < 18446744073709551616
  omega

theorem leVal_len32LE (n : Nat) (h : n < 4294967296) : leVal (len32LE n) = n := by
  rw [len32LE, Nat.mod_eq_of_lt h]
  exact leVal_natLE 4 n h

theorem deserializeBlock_serializeBlock (b : Block)
    (hd : b.Data.length < 4294967296) (hp : b.PrevHash.length < 4294967296) :
    deserializeBlock (serializeBlock b) =
      some (b.explicitlyInitialized,
            (b.Index.emod 18446744073709551616).toNat,
            (b.Timestamp.emod 18446744073709551616).toNat,
            (b.Nonce.emod 18446744073709551616).toNat,
            b.Data, b.PrevHash) := by
  have hser : serializeBlock b =
      1 :: (if b.explicitlyInitialized then 255 else 0) ::
        (int64LE b.Index ++ (int64LE b.Timestamp ++ (int64LE b.Nonce ++
         (len32LE b.Data.length ++ (b.Data ++
         (len32LE b.PrevHash.length ++ b.PrevHash)))))) := by
    simp [serializeBlock]
  rw [hser, deserializeBlock]
  rw [if_pos rfl]
  cases hflag : b.explicitlyInitialized <;>
    simp [readN_exact _ _ _ (int64LE_length _), readN_exact _ _ _ (len32LE_length _),
          readN_exact b.Data _ _ rfl, readN_all b.PrevHash _ rfl,
          leVal_len32LE _ hd, leVal_len32LE _ hp, leVal_int64LE]

theorem emod64_inj (x y : Int)
    (hx1 : -9223372036854775808 ≤ x) (hx2 : x < 9223372036854775808)
    (hy1 : -9223372036854775808 ≤ y) (hy2 : y < 9223372036854775808)
    (h : (x.emod 18446744073709551616).toNat = (y.emod 18446744073709551616).toNat) :
    x = y := by
  have hx3 : (0 : Int) ≤ x.emod 18446744073709551616 := Int.emod_nonneg x (by norm_num)
  have hy3 : (0 : Int) ≤ y.emod 18446744073709551616 := Int.emod_nonneg y (by norm_num)
  have hmod : x % 18446744073709551616 = y % 18446744073709551616 := by
    show x.emod 18446744073709551616 = y.emod 18446744073709551616
    omega
  have hdvd : (18446744073709551616 : Int) ∣ y - x := Int.ModEq.dvd hmod
  obtain ⟨k, hk⟩ := hdvd
  omega

/-- C1 (amended): serializeBlock is injective on record contents for every
pair of Go-representable blocks whose Data and PrevHash are shorter than
2^32 bytes, the width of the length prefixes: if the two records differ in
sequence number, timestamp, payload, predecessor digest or nonce, the
serialized byte strings differ.  (Without the 2^32 length bound the claim
fails; see the counterexample.) -/
theorem serializeBlock_injective (x y : Block)
    (hx : GoRange x) (hy : GoRange y)
    (hne : (x.Index, x.Timestamp, x.Data, x.PrevHash, x.Nonce) ≠
           (y.Index, y.Timestamp, y.Data, y.PrevHash, y.Nonce)) :
    serializeBlock x ≠ serializeBlock y := by
  obtain ⟨hxi1, hxi2, hxt1, hxt2, hxn1, hxn2, hxd, hxp⟩ := hx
  obtain ⟨hyi1, hyi2, hyt1, hyt2, hyn1, hyn2, hyd, hyp⟩ := hy
  intro h
  have hdec := congrArg deserializeBlock h
  rw [deserializeBlock_serializeBlock x hxd hxp,
      deserializeBlock_serializeBlock y hyd hyp] at hdec
  have htup := Option.some.inj hdec
  simp only [Prod.mk.injEq] at htup
  obtain ⟨hflag, hidx, hts, hnc, hdata, hprev⟩ := htup
  apply hne
  have h1 : x.Index = y.Index := emod64_inj _ _ hxi1 hxi2 hyi1 hyi2 hidx
  have h2 : x.Timestamp = y.Timestamp := emod64_inj _ _ hxt1 hxt2 hyt1 hyt2 hts
  have h3 : x.Nonce = y.Nonce := emod64_inj _ _ hxn1 hxn2 hyn1 hyn2 hnc
  rw [h1, h2, h3, hdata, hprev]

/-- C1 counterexample: two records that differ in payload and predecessor
digest (the values are swapped, one of the pathological shapes the claim
quantifies over) yet serialize to identical byte strings, because the
4-byte length prefix stores the length modulo 2^32 and a 2^32-byte field
gets the same prefix as an empty one. -/
theorem serializeBlock_not_injective :
    serializeBlock blkBigData = serializeBlock blkBigPrev ∧
    (blkBigData.Index, blkBigData.Timestamp, blkBigData.Data,
      blkBigData.PrevHash, blkBigData.Nonce) ≠
    (blkBigPrev.Index, blkBigPrev.Timestamp, blkBigPrev.Data,
      blkBigPrev.PrevHash, blkBigPrev.Nonce) := by
  constructor
  · have hswap : List.replicate 4294967296 (0 : Nat) ++ len32LE 0 =
        len32LE 0 ++ List.replicate 4294967296 (0 : Nat) := by
      have h4 : len32LE 0 = List.replicate 4 (0 : Nat) := rfl
      rw [h4, ← List.replicate_add, ← List.replicate_add, Nat.add_comm]
    have hmod : len32LE 4294967296 = len32LE 0 := rfl
    simp only [serializeBlock, blkBigData, blkBigPrev, List.length_replicate,
               List.length_nil, hmod, List.append_nil, List.nil_append,
               List.append_assoc]
    rw [hswap]
  · intro h
    have hdl := congrArg (fun t : Int × Int × Bytes × Bytes × Int => t.2.2.1.length) h
    simp only [blkBigData, blkBigPrev, List.length_replicate, List.length_nil] at hdl
    exact absurd hdl (by norm_num)

theorem digestVal_lt (h : Bytes) (hb : ∀ b ∈ h, b < 256) :
    digestVal h < 256 ^ h.length := by
  induction h with
  | nil => simp [digestVal]
  | cons x rest ih =>
    have hx : x < 256 := hb x (List.mem_cons_self x rest)
    have hrest : digestVal rest < 256 ^ rest.length :=
      ih fun b hbm => hb b (List.mem_cons_of_mem x hbm)
    calc x * 256 ^ rest.length + digestVal rest
        < x * 256 ^ rest.length + 256 ^ rest.length := by omega
      _ = (x + 1) * 256 ^ rest.length := by ring
      _ ≤ 256 * 256 ^ rest.length := Nat.mul_le_mul_right _ (by omega)
      _ = 256 ^ (x :: rest).length := by
          simp [List.length_cons, pow_succ]
          ring

theorem zeroPrefix_spec (m : Nat) (h : Bytes) (hm : m ≤ h.length) :
    zeroPrefix h m = some ((h.take m).all fun b => b == 0) := by
  induction m generalizing h with
  | zero => simp [zeroPrefix]
  | succ m ih =>
    cases h with
    | nil => simp at hm
    | cons x rest =>
      simp only [List.length_cons, Nat.succ_le_succ_iff] at hm
      by_cases hx : x = 0
      · subst hx
        simp [zeroPrefix, ih rest hm]
      · simp [zeroPrefix, hx]

theorem zeroPrefix_true_le (m : Nat) (h : Bytes) (ht : zeroPrefix h m = some true) :
    m ≤ h.length := by
  induction m generalizing h with
  | zero => omega
  | succ m ih =>
    cases h with
    | nil => simp [zeroPrefix] at ht
    | cons x rest =>
      simp only [zeroPrefix] at ht
      by_cases hx : x = 0
      · subst hx
        simp only [ne_eq, not_true_eq_false, if_neg] at ht
        have := ih rest (by simpa using ht)
        simp [List.length_cons]
        omega
      · simp [hx] at ht

theorem allZero_take_iff (m : Nat) (h : Bytes) (hm : m ≤ h.length)
    (hb : ∀ b ∈ h, b < 256) :
    (((h.take m).all fun b => b == 0) = true ↔
      digestVal h < 256 ^ (h.length - m)) := by
  induction m generalizing h with
  | zero =>
    simp only [List.take_zero, List.all_nil, Nat.sub_zero]
    exact iff_of_true trivial (digestVal_lt h hb)
  | succ m ih =>
    cases h with
    | nil => simp at hm
    | cons x rest =>
      simp only [List.length_cons, Nat.succ_le_succ_iff] at hm
      have hrest : ∀ b ∈ rest, b < 256 := fun b hbm => hb b (List.mem_cons_of_mem x hbm)
      simp only [List.take_succ_cons, List.all_cons, Bool.and_eq_true, beq_iff_eq]
      rw [List.length_cons]
      have hsub : rest.length + 1 - (m + 1) = rest.length - m := by omega
      rw [hsub]
      show (x = 0 ∧ ((rest.take m).all fun b => b == 0) = true) ↔
        digestVal (x :: rest) < 256 ^ (rest.length - m)
      by_cases hx : x = 0
      · subst hx
        simp only [true_and, digestVal, List.length_cons]
        rw [ih rest hm hrest]
        simp
      · apply iff_of_false
        · intro hcon
          exact hx hcon.1
        · intro hcon
          simp only [digestVal] at hcon
          have hx1 : 1 ≤ x := by omega
          have hpow : 256 ^ (rest.length - m) ≤ 256 ^ rest.length :=
            Nat.pow_le_pow_right (by norm_num) (by omega)
          have : 256 ^ rest.length ≤ x * 256 ^ rest.length := by
            calc 256 ^ rest.length = 1 * 256 ^ rest.length := by ring
              _ ≤ x * 256 ^ rest.length := Nat.mul_le_mul_right _ hx1
          omega

theorem nibble_take_iff (m : Nat) (h : Bytes) (hm : m < h.length)
    (hb : ∀ b ∈ h, b < 256) :
    ((((h.take m).all fun b => b == 0) = true ∧ h.getD m 0 < 16) ↔
      digestVal h < 16 * 256 ^ (h.length - m - 1)) := by
  induction m generalizing h with
  | zero =>
    cases h with
    | nil => simp at hm
    | cons x rest =>
      have hrest : ∀ b ∈ rest, b < 256 := fun b hbm => hb b (List.mem_cons_of_mem x hbm)
      have hdv : digestVal rest < 256 ^ rest.length := digestVal_lt rest hrest
      simp only [List.take_zero, List.all_nil, List.getD_cons_zero, true_and,
        digestVal, List.length_cons, Nat.add_sub_cancel, Nat.sub_zero]
      constructor
      · intro hx
        calc x * 256 ^ rest.length + digestVal rest
            < x * 256 ^ rest.length + 256 ^ rest.length := by omega
          _ = (x + 1) * 256 ^ rest.length := by ring
          _ ≤ 16 * 256 ^ rest.length := Nat.mul_le_mul_right _ (by omega)
      · intro hlt
        by_contra hx
        have hx16 : 16 ≤ x := by omega
        have : 16 * 256 ^ rest.length ≤ x * 256 ^ rest.length :=
          Nat.mul_le_mul_right _ hx16
        omega
  | succ m ih =>
    cases h with
    | nil => simp at hm
    | cons x rest =>
      simp only [List.length_cons, Nat.succ_lt_succ_iff] at hm
      have hrest : ∀ b ∈ rest, b < 256 := fun b hbm => hb b (List.mem_cons_of_mem x hbm)
      simp only [List.take_succ_cons, List.all_cons, Bool.and_eq_true, beq_iff_eq,
        List.getD_cons_succ, List.length_cons]
      have hsub : rest.length + 1 - (m + 1) - 1 = rest.length - m - 1 := by omega
      rw [hsub]
      by_cases hx : x = 0
      · subst hx
        have := ih rest hm hrest
        simp only [digestVal]
        constructor
        · intro hc
          have := this.mp ⟨hc.1.2, hc.2⟩
          omega
        · intro hc
          have hdv : digestVal rest < 16 * 256 ^ (rest.length - m - 1) := by omega
          have := this.mpr hdv
          exact ⟨⟨trivial, this.1⟩, this.2⟩
      · apply iff_of_false
        · intro hcon
          exact hx hcon.1.1
        · intro hcon
          simp only [digestVal] at hcon
          have hx1 : 1 ≤ x := by omega
          have hp1 : 16 * 256 ^ (rest.length - m - 1) ≤ 256 * 256 ^ (rest.length - m - 1) :=
            Nat.mul_le_mul_right _ (by norm_num)
          have hp2 : (256 : Nat) * 256 ^ (rest.length - m - 1) = 256 ^ (rest.length - m - 1 + 1) := by
            rw [pow_succ]
            ring
          have hp3 : (256 : Nat) ^ (rest.length - m - 1 + 1) ≤ 256 ^ rest.length := by
            apply Nat.pow_le_pow_right (by norm_num)
            omega
          have : 256 ^ rest.length ≤ x * 256 ^ rest.length := by
            calc (256 : Nat) ^ rest.length = 1 * 256 ^ rest.length := by ring
              _ ≤ x * 256 ^ rest.length := Nat.mul_le_mul_right _ hx1
          omega

theorem pow256_eq_pow2 (t : Nat) : (256 : Nat) ^ t = 2 ^ (8 * t) := by
  rw [show (256 : Nat) = 2 ^ 8 from rfl, ← pow_mul]

theorem tdiv2_toNat (k : Nat) : (Int.tdiv (k : Int) 2).toNat = k / 2 := by
  have h : Int.tdiv (k : Int) 2 = ((k / 2 : Nat) : Int) := by
    rw [Int.tdiv_eq_ediv] <;> simp [Int.ofNat_ediv]
  rw [h]
  exact Int.toNat_ofNat _

theorem tmod2_one_iff (k : Nat) : (Int.tmod (k : Int) 2 = 1) ↔ k % 2 = 1 := by
  have h : Int.tmod (k : Int) 2 = ((k % 2 : Nat) : Int) := by
    exact_mod_cast Int.ofNat_tmod k 2
  rw [h]
  omega

theorem powCheck_true_le64 (hash : Bytes) (k : Nat) (hlen : hash.length = 32)
    (ht : powCheck hash (k : Int) = some true) : k ≤ 64 := by
  rw [powCheck, tdiv2_toNat] at ht
  cases hz : zeroPrefix hash (k / 2) with
  | none => rw [hz] at ht; exact absurd ht (by simp)
  | some b =>
    cases b with
    | false => rw [hz] at ht; exact absurd ht (by simp)
    | true =>
      have hhalf : k / 2 ≤ 32 := hlen ▸ zeroPrefix_true_le (k / 2) hash hz
      rw [hz] at ht
      by_cases hodd : Int.tmod (k : Int) 2 = 1
      · rw [if_pos hodd] at ht
        cases hg : hash[(k / 2)]? with
        | none => rw [hg] at ht; exact absurd ht (by simp)
        | some v =>
          have hlt : k / 2 < hash.length := by
            by_contra hc
            rw [List.getElem?_eq_none (by omega)] at hg
            exact absurd hg (by simp)
          rw [hlen] at hlt
          have hk2 := (tmod2_one_iff k).mp hodd
          omega
      · rw [if_neg hodd] at ht
        have hk2 : k % 2 = 0 := by
          rcases Nat.mod_two_eq_zero_or_one k with h | h
          · exact h
          · exact absurd ((tmod2_one_iff k).mpr h) hodd
        omega

theorem powCheck_true_iff (hash : Bytes) (k : Nat)
    (hlen : hash.length = 32) (hmem : ∀ b ∈ hash, b < 256) (hk : k ≤ 64) :
    (powCheck hash (k : Int) = some true ↔ digestVal hash < 2 ^ (256 - 4 * k)) := by
  have hhalf : k / 2 ≤ 32 := by omega
  have hle : k / 2 ≤ hash.length := by omega
  rw [powCheck, tdiv2_toNat, zeroPrefix_spec (k / 2) hash hle]
  rcases Nat.mod_two_eq_zero_or_one k with heven | hodd
  · -- even difficulty: exactly k/2 zero bytes
    have hiff := allZero_take_iff (k / 2) hash hle hmem
    have hpow : 256 ^ (hash.length - k / 2) = 2 ^ (256 - 4 * k) := by
      rw [pow256_eq_pow2, hlen]
      congr 1
      omega
    rw [hpow] at hiff
    have hnotodd : ¬ Int.tmod (k : Int) 2 = 1 := by
      rw [tmod2_one_iff]
      omega
    cases hall : (hash.take (k / 2)).all fun b => b == 0 with
    | false =>
      constructor
      · intro hcon; exact absurd hcon (by simp)
      · intro hcon
        have hatrue := hiff.mpr hcon
        rw [hall] at hatrue
        exact absurd hatrue (by simp)
    | true =>
      rw [if_neg hnotodd]
      exact iff_of_true (by rfl) (hiff.mp hall)
  · -- odd difficulty: k/2 zero bytes plus a zero top nibble
    have hk63 : k ≤ 63 := by omega
    have hlt : k / 2 < hash.length := by omega
    have hgetd : hash.getD (k / 2) 0 = hash[k / 2] :=
      List.getD_eq_getElem hash 0 hlt
    have hisodd : Int.tmod (k : Int) 2 = 1 := (tmod2_one_iff k).mpr hodd
    have hiff := nibble_take_iff (k / 2) hash hlt hmem
    have hpow : 16 * 256 ^ (hash.length - k / 2 - 1) = 2 ^ (256 - 4 * k) := by
      rw [pow256_eq_pow2, hlen, show (16 : Nat) = 2 ^ 4 from rfl, ← pow_add]
      congr 1
      omega
    rw [hpow] at hiff
    rw [if_pos hisodd, List.getElem?_eq_getElem hlt]
    cases hall : (hash.take (k / 2)).all fun b => b == 0 with
    | false =>
      constructor
      · intro hcon; exact absurd hcon (by simp)
      · intro hcon
        have := hiff.mpr hcon
        rw [hall] at this
        exact absurd this.1 (by simp)
    | true =>
      constructor
      · intro hcon
        have hv : hash[k / 2] < 16 := by
          by_contra hge
          simp [hge] at hcon
        exact hiff.mp ⟨hall, hgetd ▸ hv⟩
      · intro hcon
        have := (hiff.mpr hcon).2
        rw [hgetd] at this
        simp [this]

theorem powLoop_spec (block : Block) (d : Int) :
    ∀ (fuel : Nat) (nonce : Int) (hsh : Bytes) (n : Int),
      powLoop block d fuel nonce = some (hsh, n) →
      nonce ≤ n ∧ hsh = calculateHash {block with Nonce := n} ∧
      powCheck (calculateHash {block with Nonce := n}) d = some true ∧
      ∀ m : Int, nonce ≤ m → m < n →
        powCheck (calculateHash {block with Nonce := m}) d = some false := by
  intro fuel
  induction fuel with
  | zero =>
    intro nonce hsh n h
    exact absurd h (by simp [powLoop])
  | succ fuel ih =>
    intro nonce hsh n h
    rw [powLoop] at h
    cases hc : powCheck (calculateHash {block with Nonce := nonce}) d with
    | none => rw [hc] at h; exact absurd h (by simp)
    | some b =>
      cases b with
      | true =>
        rw [hc] at h
        have hp := Option.some.inj h
        have hn : n = nonce := (congrArg Prod.snd hp).symm
        have hh : hsh = calculateHash {block with Nonce := nonce} :=
          (congrArg Prod.fst hp).symm
        subst hn
        refine ⟨le_refl _, hh, hc, ?_⟩
        intro m hm1 hm2
        omega
      | false =>
        rw [hc] at h
        obtain ⟨h1, h2, h3, h4⟩ := ih (nonce + 1) hsh n h
        refine ⟨by omega, h2, h3, ?_⟩
        intro m hm1 hm2
        by_cases hm : m = nonce
        · subst hm; exact hc
        · exact h4 m (by omega) hm2

/-- C3 (amended): for every record, every non-negative difficulty d and
every fueled run of proofOfWork that returns: the returned digest is the
record's digest at the returned nonce, its first 4·d bits (big-endian bit
order) are zero — the code tests d hex digits: d/2 whole zero bytes plus,
for odd d, a zero top nibble — and the returned nonce is the smallest
non-negative nonce whose digest satisfies that 4·d-bit predicate; the
search starts at nonce 0 and skips no nonce.  (The claim reads the
predicate as the first d bits; that reading fails, see the
counterexample.) -/
theorem proofOfWork_correct (block : Block) (k : Nat) (fuel : Nat) (hsh : Bytes) (n : Int)
    (hret : proofOfWork block (k : Int) fuel = some (hsh, n)) :
    hsh = calculateHash {block with Nonce := n} ∧
    digestVal hsh < 2 ^ (256 - 4 * k) ∧
    0 ≤ n ∧
    ∀ m : Int, 0 ≤ m → m < n →
      ¬ digestVal (calculateHash {block with Nonce := m}) < 2 ^ (256 - 4 * k) := by
  rw [proofOfWork] at hret
  rw [if_neg (not_lt.mpr (Int.tdiv_nonneg (by positivity) (by norm_num)))] at hret
  obtain ⟨hle, heq, htrue, hmin⟩ := powLoop_spec block _ fuel 0 hsh n hret
  have hk64 : k ≤ 64 :=
    powCheck_true_le64 _ k (calculateHash_length _) htrue
  have hbound :=
    (powCheck_true_iff _ k (calculateHash_length _) (calculateHash_mem_lt _) hk64).mp htrue
  refine ⟨heq, heq ▸ hbound, hle, ?_⟩
  intro m hm1 hm2 hcon
  have hfalse := hmin m hm1 hm2
  have htrue2 :=
    (powCheck_true_iff _ k (calculateHash_length _) (calculateHash_mem_lt _) hk64).mpr hcon
  rw [hfalse] at htrue2
  exact absurd (Option.some.inj htrue2) (by simp)

theorem powCheck_zero_any (h : Bytes) : powCheck h 0 = some true := by
  cases h <;> rfl

/-- C4: for every record, mining with difficulty 0 terminates immediately:
proofOfWork returns on the very first iteration (any positive fuel) with
nonce 0 and the digest of the record at nonce 0. -/
theorem proofOfWork_difficulty_zero (block : Block) (fuel : Nat) :
    proofOfWork block 0 (fuel + 1) = some (calculateHash {block with Nonce := 0}, 0) := by
  rw [proofOfWork, if_neg (by decide), powLoop, powCheck_zero_any]

theorem powCheck_neg_one (h : Bytes) : powCheck h (-1) = some true := by
  cases h <;> rfl

theorem powCheck_neg_two (h : Bytes) : powCheck h (-2) = some true := by
  cases h <;> rfl

/-- C7 (amended): proofOfWork validates nothing and reports no error for
out-of-range difficulties: for the negative difficulties -1 and -2 the
search silently behaves exactly like difficulty 0, returning nonce 0 and
the digest of the record at nonce 0 as if the difficulty were valid (and
for difficulty at most -3 the Go code panics on a negative-length buffer
allocation rather than reporting an InvalidDifficulty error). -/
theorem proofOfWork_negative_difficulty_silent (block : Block) (fuel : Nat) :
    proofOfWork block (-1) (fuel + 1) = some (calculateHash {block with Nonce := 0}, 0) ∧
    proofOfWork block (-2) (fuel + 1) = some (calculateHash {block with Nonce := 0}, 0) := by
  constructor
  · rw [proofOfWork, if_neg (by decide), powLoop, powCheck_neg_one]
  · rw [proofOfWork, if_neg (by decide), powLoop, powCheck_neg_two]

theorem CacheAgrees.mono {blocks1 blocks2 : List Block} {cache : List (Int × Bytes)}
    (hsub : ∀ b ∈ blocks2, b ∈ blocks1) (h : CacheAgrees blocks1 cache) :
    CacheAgrees blocks2 cache :=
  fun i hh hlk b hb hidx => h i hh hlk b (hsub b hb) hidx

theorem cacheAgrees_nil (blocks : List Block) : CacheAgrees blocks [] := by
  intro i h hlk
  rw [cacheLookup] at hlk
  exact absurd hlk (by simp)

theorem index_inj_of_pairwise (blocks : List Block)
    (hpw : blocks.Pairwise (fun a b => a.Index ≠ b.Index)) :
    ∀ x ∈ blocks, ∀ y ∈ blocks, x.Index = y.Index → x = y := by
  induction blocks with
  | nil => simp
  | cons a rest ih =>
    intro x hx y hy hxy
    rcases List.mem_cons.mp hx with rfl | hx2
    · rcases List.mem_cons.mp hy with rfl | hy2
      · rfl
      · exact absurd hxy ((List.pairwise_cons.mp hpw).1 y hy2)
    · rcases List.mem_cons.mp hy with rfl | hy2
      · exact absurd hxy.symm ((List.pairwise_cons.mp hpw).1 x hx2)
      · exact ih (List.pairwise_cons.mp hpw).2 x hx2 y hy2 hxy

theorem getOrCompute_fst (cache : List (Int × Bytes)) (b : Block) (blocks : List Block)
    (hag : CacheAgrees blocks cache) (hb : b ∈ blocks) :
    (getOrCompute cache b).1 = calculateHash b := by
  rw [getOrCompute]
  cases hl : cacheLookup cache b.Index with
  | none => rfl
  | some h => exact hag b.Index h hl b hb rfl

theorem getOrCompute_snd_agrees (cache : List (Int × Bytes)) (b : Block) (blocks : List Block)
    (hag : CacheAgrees blocks cache) (hb : b ∈ blocks)
    (hinj : ∀ x ∈ blocks, ∀ y ∈ blocks, x.Index = y.Index → x = y) :
    CacheAgrees blocks (getOrCompute cache b).2 := by
  rw [getOrCompute]
  cases hl : cacheLookup cache b.Index with
  | some h => exact hag
  | none =>
    intro i h hlk b2 hb2 hidx
    rw [cacheLookup] at hlk
    by_cases he : b.Index = i
    · rw [if_pos he] at hlk
      have hb2b : b2 = b := hinj b2 hb2 b hb (by rw [hidx, he])
      rw [hb2b]
      exact (Option.some.inj hlk).symm
    · rw [if_neg he] at hlk
      exact hag i h hlk b2 hb2 hidx

theorem validCachedLoop_eq_noCache (rest : List Block) :
    ∀ (prev : Block) (cache : List (Int × Bytes)),
      (∀ x ∈ prev :: rest, ∀ y ∈ prev :: rest, x.Index = y.Index → x = y) →
      CacheAgrees (prev :: rest) cache →
      validCachedLoop prev rest cache = isChainValidNoCache (prev :: rest) := by
  induction rest with
  | nil => intro prev cache _ _; rfl
  | cons curr rest ih =>
    intro prev cache hinj hag
    have hmemprev : prev ∈ prev :: curr :: rest := List.mem_cons_self _ _
    have hmemcurr : curr ∈ prev :: curr :: rest :=
      List.mem_cons_of_mem _ (List.mem_cons_self _ _)
    rw [isChainValidNoCache, validateBlockPair]
    cases hgc1 : getOrCompute cache prev with
    | mk ph cache1 =>
      have hfst1 : ph = calculateHash prev := by
        have h := getOrCompute_fst cache prev _ hag hmemprev
        rw [hgc1] at h
        exact h
      have hag1 : CacheAgrees (prev :: curr :: rest) cache1 := by
        have h := getOrCompute_snd_agrees cache prev _ hag hmemprev hinj
        rw [hgc1] at h
        exact h
      cases hgc2 : getOrCompute cache1 curr with
      | mk ch cache2 =>
        have hfst2 : ch = calculateHash curr := by
          have h := getOrCompute_fst cache1 curr _ hag1 hmemcurr
          rw [hgc2] at h
          exact h
        have hag2 : CacheAgrees (prev :: curr :: rest) cache2 := by
          have h := getOrCompute_snd_agrees cache1 curr _ hag1 hmemcurr hinj
          rw [hgc2] at h
          exact h
        simp only [validCachedLoop, hgc1, hgc2]
        subst hfst1
        subst hfst2
        cases hc1 : curr.PrevHash == calculateHash prev with
        | false => simp [hc1]
        | true =>
          cases hc2 : curr.Hash == calculateHash curr with
          | false => simp [hc1, hc2]
          | true =>
            have hsub : ∀ b ∈ curr :: rest, b ∈ prev :: curr :: rest :=
              fun b hb => List.mem_cons_of_mem _ hb
            have hrec := ih curr cache2
              (fun x hx y hy => hinj x (hsub x hx) y (hsub y hy))
              (hag2.mono hsub)
            simp [hc1, hc2, hrec]

theorem isChainValidCached_eq_noCache (chain : List Block)
    (hpw : chain.Pairwise (fun a b => a.Index ≠ b.Index)) :
    isChainValidCached chain = isChainValidNoCache chain := by
  cases chain with
  | nil => rfl
  | cons b rest =>
    exact validCachedLoop_eq_noCache rest b []
      (index_inj_of_pairwise _ hpw) (cacheAgrees_nil _)

theorem allPairsValid_eq_noCache :
    ∀ chain : List Block, allPairsValid chain = isChainValidNoCache chain
  | [] => rfl
  | [_] => rfl
  | a :: b :: rest => by
    rw [allPairsValid, isChainValidNoCache, allPairsValid_eq_noCache (b :: rest)]

/-- C9 (amended): the Index-keyed hash cache is a strict optimization only
on chains whose records have pairwise-distinct Index values: there
isChainValidCached returns exactly the verdict of the cache-free reference
validator that recomputes every digest.  (On chains with duplicate Index
values the cache changes the verdict; see the counterexample.) -/
theorem cached_eq_reference_of_distinct_index (chain : List Block)
    (hpw : chain.Pairwise (fun a b => a.Index ≠ b.Index)) :
    isChainValidCached chain = isChainValidNoCache chain :=
  isChainValidCached_eq_noCache chain hpw

/-- C9 counterexample: a 2-record chain whose records share Index 0 and
where the second record stores the first record's digest as its own.  The
cached validator fetches the first record's digest from the cache under
the duplicate key and accepts; the cache-free reference validator
recomputes the second record's digest and rejects. -/
theorem cached_differs_from_reference :
    isChainValidCached [blkA, blkB] = true ∧
    isChainValidNoCache [blkA, blkB] = false ∧
    blkA.Index = blkB.Index :=
  ⟨rfl, rfl, rfl⟩

/-- C5 (amended): the sequential cached validator and the concurrent
validator agree on every chain below the 1000-record threshold (the
concurrent validator falls back to the sequential one there) and on every
chain whose records have pairwise-distinct Index values; the concurrent
verdict is the conjunction of all per-pair checks, independent of worker
scheduling.  (On chains of at least 1000 records with duplicate Index
values the two can disagree; see the counterexample.) -/
theorem validators_agree (chain : List Block)
    (h : chain.length < 1000 ∨ chain.Pairwise (fun a b => a.Index ≠ b.Index)) :
    isChainValidConcurrent chain = isChainValidCached chain := by
  rw [isChainValidConcurrent]
  by_cases h0 : chain.length = 0
  · rw [if_pos h0]
    cases chain with
    | nil => rfl
    | cons a rest => simp at h0
  · rw [if_neg h0]
    by_cases h1 : chain.length < 1000
    · rw [if_pos h1]
    · rw [if_neg h1]
      rcases h with hlen | hpw
      · exact absurd hlen h1
      · rw [allPairsValid_eq_noCache, isChainValidCached_eq_noCache chain hpw]

/-- C5 counterexample: on chainC5 the cached sequential validator returns
true (every lookup under the duplicate key Index 0 yields blkA's digest,
which is exactly what every blkB record stores) while the concurrent
validator, whose workers recompute both digests of their pair from
scratch, returns false. -/
theorem validators_disagree :
    isChainValidCached chainC5 = true ∧
    isChainValidConcurrent chainC5 = false :=
  ⟨rfl, rfl⟩

/-- Witness for the C5 theorem at a concrete short chain (fallback path). -/
theorem validators_agree_witness :
    isChainValidConcurrent [blkA, blkB] = isChainValidCached [blkA, blkB] :=
  validators_agree [blkA, blkB] (Or.inl (by decide))

/-! ## C6: tampering with the last record's nonce

Neither validator re-checks the mining difficulty, so a record whose nonce
is reset and whose digest is recomputed remains acceptable. -/

theorem validCached3_true_iff (g b1 b2 : Block)
    (h01 : g.Index ≠ b1.Index) (h02 : g.Index ≠ b2.Index) (h12 : b1.Index ≠ b2.Index) :
    (isChainValidCached [g, b1, b2] = true ↔
      (b1.PrevHash = calculateHash g ∧ b1.Hash = calculateHash b1 ∧
       b2.PrevHash = calculateHash b1 ∧ b2.Hash = calculateHash b2)) := by
  simp [isChainValidCached, validCachedLoop, getOrCompute, cacheLookup,
        h01, h02, h12, and_assoc]

/-- C6 (amended): for every 3-record chain with pairwise-distinct Index
values (as any chain built by the code has) on which validate returns
true, setting the last record's nonce to 0 without re-mining and
recomputing its digest field leaves both validate and validate_concurrent
returning true, not false: neither validator re-checks the proof-of-work
difficulty.  (The claim expects false; the counterexample exhibits a
difficulty-1 chain where both return true after the tamper.) -/
theorem tampered_last_record_still_validates (g b1 b2 : Block)
    (h01 : g.Index ≠ b1.Index) (h02 : g.Index ≠ b2.Index) (h12 : b1.Index ≠ b2.Index)
    (hvalid : isChainValidCached [g, b1, b2] = true) :
    isChainValidCached
      [g, b1, {b2 with Nonce := 0, Hash := calculateHash {b2 with Nonce := 0}}] = true ∧
    isChainValidConcurrent
      [g, b1, {b2 with Nonce := 0, Hash := calculateHash {b2 with Nonce := 0}}] = true := by
  obtain ⟨hc1, hc2, hc3, _⟩ := (validCached3_true_iff g b1 b2 h01 h02 h12).mp hvalid
  have hcached : isChainValidCached
      [g, b1, {b2 with Nonce := 0, Hash := calculateHash {b2 with Nonce := 0}}] = true := by
    rw [validCached3_true_iff g b1
          {b2 with Nonce := 0, Hash := calculateHash {b2 with Nonce := 0}} h01 h02 h12]
    exact ⟨hc1, hc2, hc3, rfl⟩
  refine ⟨hcached, ?_⟩
  rw [isChainValidConcurrent, if_neg (by simp), if_pos (by simp)]
  exact hcached

/-- C6 counterexample: the concrete 3-record chain of the scenario, built
by the code with difficulty 1 and payloads Genesis, Block 1, Block 2
(timestamps 0, 9, 1); validate accepts it; after resetting the last
record's nonce to 0 and recomputing its digest — a digest that genuinely
violates difficulty 1, its leading nibble is not zero — both validate and
validate_concurrent still return true, where the claim expects false. -/
theorem tampered_chain_accepted_concretely :
    buildChain 0 1 [⟨b1Data, 9, 20⟩, ⟨b2Data, 1, 20⟩] = some [gBlock, b1Block, b2Block] ∧
    isChainValidCached [gBlock, b1Block, b2Block] = true ∧
    b2Tampered = {b2Block with Nonce := 0, Hash := calculateHash {b2Block with Nonce := 0}} ∧
    isChainValidCached [gBlock, b1Block, b2Tampered] = true ∧
    isChainValidConcurrent [gBlock, b1Block, b2Tampered] = true ∧
    ¬ digestVal hashB2T < 2 ^ (256 - 4 * 1) :=
  ⟨rfl, rfl, rfl, rfl, rfl, by decide⟩

/-- Witness for the C6 theorem at the concrete scenario chain. -/
theorem tampered_last_record_still_validates_witness :
    isChainValidCached
      [gBlock, b1Block,
       {b2Block with Nonce := 0, Hash := calculateHash {b2Block with Nonce := 0}}] = true ∧
    isChainValidConcurrent
      [gBlock, b1Block,
       {b2Block with Nonce := 0, Hash := calculateHash {b2Block with Nonce := 0}}] = true :=
  tampered_last_record_still_validates gBlock b1Block b2Block
    (by decide) (by decide) (by decide) rfl

theorem generateBlock_props (prev : Block) (data : Bytes) (d ts : Int) (fuel : Nat)
    (b : Block) (h : generateBlock prev data d ts fuel = some b) :
    b.Index = prev.Index + 1 ∧ b.PrevHash = prev.Hash ∧ b.Hash = calculateHash b := by
  rw [generateBlock] at h
  cases hp : proofOfWork
      { Index := prev.Index + 1, Timestamp := ts, Data := data,
        PrevHash := prev.Hash, Hash := [], Nonce := 0,
        explicitlyInitialized := false } d fuel with
  | none => rw [hp] at h; exact absurd h (by simp)
  | some p =>
    cases p with
    | mk hash nonce =>
      rw [hp] at h
      have hb := (Option.some.inj h).symm
      rw [proofOfWork] at hp
      by_cases hg : Int.tdiv (d + 1) 2 < 0
      · rw [if_pos hg] at hp
        exact absurd hp (by simp)
      · rw [if_neg hg] at hp
        obtain ⟨_, heq, _, _⟩ := powLoop_spec _ d fuel 0 hash nonce hp
        subst hb
        exact ⟨rfl, rfl, heq.trans rfl⟩

theorem buildRest_linked (specs : List BlockSpec) :
    ∀ (prev : Block) (d : Int) (bs : List Block),
      buildRest prev d specs = some bs → ChainLinked prev bs := by
  induction specs with
  | nil =>
    intro prev d bs h
    rw [buildRest] at h
    have hbs : bs = [] := (Option.some.inj h).symm
    rw [hbs]
    exact trivial
  | cons s rest ih =>
    intro prev d bs h
    rw [buildRest] at h
    cases hg : generateBlock prev s.data d s.ts s.fuel with
    | none => rw [hg] at h; exact absurd h (by simp)
    | some b =>
      rw [hg] at h
      simp only [] at h
      cases hr : buildRest b d rest with
      | none => rw [hr] at h; exact absurd h (by simp)
      | some bs2 =>
        rw [hr] at h
        have hbs : bs = b :: bs2 := (Option.some.inj h).symm
        subst hbs
        obtain ⟨h1, h2, h3⟩ := generateBlock_props prev s.data d s.ts s.fuel b hg
        exact ⟨h1, h2, h3, ih b d bs2 hr⟩

theorem chainLinked_index_gt (bs : List Block) :
    ∀ prev : Block, ChainLinked prev bs → ∀ x ∈ bs, prev.Index < x.Index := by
  induction bs with
  | nil => intro prev _ x hx; simp at hx
  | cons b rest ih =>
    intro prev h x hx
    obtain ⟨h1, _, _, hlink⟩ := h
    rcases List.mem_cons.mp hx with rfl | hx2
    · omega
    · have := ih b hlink x hx2
      omega

theorem chainLinked_pairwise (prev : Block) (bs : List Block) (h : ChainLinked prev bs) :
    (prev :: bs).Pairwise (fun a b => a.Index ≠ b.Index) := by
  induction bs generalizing prev with
  | nil => simp
  | cons b rest ih =>
    obtain ⟨hidx, _, _, hlink⟩ := h
    have hgt := chainLinked_index_gt rest b hlink
    rw [List.pairwise_cons]
    constructor
    · intro x hx
      rcases List.mem_cons.mp hx with rfl | hx2
      · omega
      · have := hgt x hx2
        omega
    · exact ih b hlink

theorem chainLinked_noCache (bs : List Block) :
    ∀ prev : Block, prev.Hash = calculateHash prev → ChainLinked prev bs →
      isChainValidNoCache (prev :: bs) = true := by
  induction bs with
  | nil => intro prev _ _; rfl
  | cons b rest ih =>
    intro prev hprev h
    obtain ⟨_, h2, h3, hlink⟩ := h
    rw [isChainValidNoCache, validateBlockPair, ← hprev, h2, ← h3]
    simp [ih b h3 hlink]

/-- C10: chain construction preserves validity: every chain obtained from
newGenesisBlock by repeatedly appending generateBlock, for arbitrary
payloads, timestamps and any difficulty whose mining run returns,
satisfies isChainValidCached, and every appended record extends its
predecessor: Index plus 1, PrevHash byte-equal to the predecessor's Hash,
and Hash equal to calculateHash of its own final field values (the
ChainLinked conjunct). -/
theorem buildChain_valid (gts d : Int) (specs : List BlockSpec) (chain : List Block)
    (h : buildChain gts d specs = some chain) :
    isChainValidCached chain = true ∧
    ∃ bs, chain = newGenesisBlock gts :: bs ∧ ChainLinked (newGenesisBlock gts) bs := by
  rw [buildChain] at h
  cases hr : buildRest (newGenesisBlock gts) d specs with
  | none => rw [hr] at h; exact absurd h (by simp)
  | some bs =>
    rw [hr] at h
    have hchain : chain = newGenesisBlock gts :: bs := (Option.some.inj h).symm
    subst hchain
    have hlink := buildRest_linked specs (newGenesisBlock gts) d bs hr
    have hghash : (newGenesisBlock gts).Hash = calculateHash (newGenesisBlock gts) := rfl
    have hpw := chainLinked_pairwise (newGenesisBlock gts) bs hlink
    refine ⟨?_, bs, rfl, hlink⟩
    rw [isChainValidCached_eq_noCache _ hpw]
    exact chainLinked_noCache bs (newGenesisBlock gts) hghash hlink

/-- Witness for the C10 theorem: a concrete difficulty-0 build. -/
theorem buildChain_valid_witness :
    isChainValidCached [gBlock, b1W, b2W] = true ∧
    ∃ bs, [gBlock, b1W, b2W] = newGenesisBlock 0 :: bs ∧
      ChainLinked (newGenesisBlock 0) bs :=
  buildChain_valid 0 0 [⟨b1Data, 5, 1⟩, ⟨b2Data, 6, 1⟩] [gBlock, b1W, b2W] rfl

/-- C8 (spec-modelled): both the miner and the concurrent validator the
spec describes accept an external cancellation signal.  When the signal is
already expired at the start of a mining run, the miner returns Cancelled
— for every record, every in-range difficulty (in particular one
guaranteeing a long search), every polling interval and any fuel — rather
than looping or returning a false success, and a Cancelled mining outcome
is distinct from every successful proof-of-work outcome.  Likewise the
cancellable concurrent validation of any chain with at least one adjacent
pair returns the cancelled outcome under an already-expired signal, and a
cancelled validation is distinct from every completed verdict — in
particular it is never reported as a valid chain. -/
theorem mine_and_validate_cancelled_when_expired (block : Block) (difficulty : Int)
    (interval fuel : Nat) (b0 b1 : Block) (rest : List Block)
    (hd1 : 0 ≤ difficulty) (hd2 : difficulty ≤ 256) :
    mineCancellable block difficulty (fun _ => true) interval (fuel + 1) = some .cancelled ∧
    (∀ digest nonce, MineOutcome.cancelled ≠ MineOutcome.success digest nonce) ∧
    validateConcurrentCancellable (b0 :: b1 :: rest) (fun _ => true) = .cancelled ∧
    (∀ verdict : Bool, ValidateOutcome.cancelled ≠ ValidateOutcome.completed verdict) := by
  refine ⟨?_, ?_, ?_, ?_⟩
  · rw [mineCancellable, if_neg (by omega), mineCancelLoop]
    simp
  · intro digest nonce hcon
    exact absurd hcon (by simp)
  · simp [validateConcurrentCancellable, validateConcurrentLoop]
  · intro verdict hcon
    exact absurd hcon (by simp)

/-- Witness for the C8 theorem at difficulty 64 (a search that would not
finish in practice) and a concrete 2-record chain, both under an
immediately-expired signal. -/
theorem mine_and_validate_cancelled_when_expired_witness :
    mineCancellable blkA 64 (fun _ => true) 100 1 = some .cancelled ∧
    (∀ digest nonce, MineOutcome.cancelled ≠ MineOutcome.success digest nonce) ∧
    validateConcurrentCancellable [blkA, blkB] (fun _ => true) = .cancelled ∧
    (∀ verdict : Bool, ValidateOutcome.cancelled ≠ ValidateOutcome.completed verdict) :=
  mine_and_validate_cancelled_when_expired blkA 64 100 0 blkA blkB []
    (by decide) (by decide)

/-- C3 counterexample: at difficulty 1 the search returns nonce 2, yet the
digest at nonce 0 already has its first bit (indeed its first two bits)
zero — its value is below 2^255 — so the returned nonce is not the
smallest whose digest has its first 1 bit zero; the code requires the
first 4 bits (one hex digit) to be zero. -/
theorem proofOfWork_skips_bit_satisfying_nonce :
    proofOfWork c3Block 1 20 = some (c3Hash, 2) ∧
    digestVal (calculateHash {c3Block with Nonce := 0}) < 2 ^ (256 - 1) ∧
    (0 : Int) < 2 := by
  refine ⟨rfl, ?_, by decide⟩
  have h0 : calculateHash {c3Block with Nonce := 0} = c3Nonce0Hash := rfl
  rw [h0]
  decide

/-- Witness for the C3 theorem at the concrete difficulty-1 run. -/
theorem proofOfWork_correct_witness :
    c3Hash = calculateHash {c3Block with Nonce := 2} ∧
    digestVal c3Hash < 2 ^ (256 - 4 * 1) ∧
    (0 : Int) ≤ 2 ∧
    (∀ m : Int, 0 ≤ m → m < 2 →
      ¬ digestVal (calculateHash {c3Block with Nonce := m}) < 2 ^ (256 - 4 * 1)) :=
  proofOfWork_correct c3Block 1 20 c3Hash 2 rfl

/-- C7 counterexample: difficulty -2 lies outside the supported range, yet
proofOfWork returns a normal mining result — nonce 0 with the record's
digest — instead of reporting an InvalidDifficulty error to the caller. -/
theorem proofOfWork_no_error_outside_range :
    proofOfWork blkA (-2) 1 = some (hashA, 0) := rfl

/-- Witness for the C1 theorem: two otherwise identical small records with
different nonces serialize differently. -/
theorem serializeBlock_injective_witness :
    serializeBlock { Index := 0, Timestamp := 0, Data := [], PrevHash := [],
                     Hash := [], Nonce := 0, explicitlyInitialized := false } ≠
    serializeBlock { Index := 0, Timestamp := 0, Data := [], PrevHash := [],
                     Hash := [], Nonce := 1, explicitlyInitialized := false } :=
  serializeBlock_injective _ _ (by decide) (by decide) (by decide)


/-- Witness for the C9 theorem at a concrete distinct-index chain. -/
theorem cached_eq_reference_of_distinct_index_witness :
    isChainValidCached [gBlock, b1Block] = isChainValidNoCache [gBlock, b1Block] :=
  cached_eq_reference_of_distinct_index [gBlock, b1Block] (by decide)
